import Mathlib

/-!
Verification of the midi2gcode repository (src/midi2gcode.py, src/midifile.py)
against its natural-language specification.

Conventions of the shallow embedding:
* Python floats are modelled as exact rationals (`ℚ`); Python ints as `ℕ`/`ℤ`.
* Fallible code (assertion failures, raised exceptions such as `ValueError`,
  `NameError`, `ZeroDivisionError`, `AttributeError`, `IndexError`, `KeyError`)
  is modelled with `Option`, `none` standing for an aborted run.
* The generator `Midi2Gcode.move` is modelled as a fuelled function returning
  the list of position values observed at each `yield` together with the final
  planner state (`none` when the run raised or fuel ran out, which also stands
  for the non-terminating EOF loop of `_parse_track`).
-/

/-- The three machine axes `'X'`, `'Y'`, `'Z'` of midi2gcode.py. -/
inductive Axis
  | X
  | Y
  | Z
  deriving DecidableEq

/-- A per-axis table (`dict` keyed by axis in the source), used for both the
planner position `self._pos` and the direction memory `self._last_dir`. -/
structure AxisMap (α : Type) where
  x : α
  y : α
  z : α
  deriving DecidableEq

def AxisMap.get {α : Type} (m : AxisMap α) : Axis → α
  | Axis.X => m.x
  | Axis.Y => m.y
  | Axis.Z => m.z

def AxisMap.set {α : Type} (m : AxisMap α) : Axis → α → AxisMap α
  | Axis.X, v => { m with x := v }
  | Axis.Y, v => { m with y := v }
  | Axis.Z, v => { m with z := v }

@[simp]
theorem AxisMap.get_set_self {α : Type} (m : AxisMap α) (a : Axis) (v : α) :
    (m.set a v).get a = v := by
  cases a <;> rfl

theorem AxisMap.get_set_ne {α : Type} (m : AxisMap α) {a b : Axis} (v : α) (h : a ≠ b) :
    (m.set a v).get b = m.get b := by
  cases a <;> cases b <;> first | rfl | exact absurd rfl h

/-- `LIMITS_MM`: travel limits of the "build" volume, per axis (midi2gcode.py). -/
def LIMITS_MM : Axis → ℚ × ℚ
  | Axis.X => (10, 210)
  | Axis.Y => (10, 210)
  | Axis.Z => (10, 210)

/-- One entry of `max_distances` in `Midi2Gcode.move`:
`max(abs(self._pos[axis] - l) for l in LIMITS_MM[axis])`. -/
def max_distance (pos : AxisMap ℚ) (a : Axis) : ℚ :=
  max |pos.get a - (LIMITS_MM a).1| |pos.get a - (LIMITS_MM a).2|

/-- The planner state owned by a `Midi2Gcode` instance: `self._pos` and
`self._last_dir` (direction values are the Python ints ±1, embedded in `ℚ`). -/
structure M2GState where
  pos : AxisMap ℚ
  lastDir : AxisMap ℚ
  deriving DecidableEq

/-- The `for axis, distance in distances.items()` loop of the single-move
branch of `Midi2Gcode.move` (lines 104-118), resolving the axes of `distances`
in order.  The first branch ends in `continue`, so the
`self._last_dir['Z'] = -1` line runs only after an axis was resolved through
the inverse-direction (`elif`) branch; the final `else` raises `ValueError`. -/
def resolveAxes : M2GState → List (Axis × ℚ) → Option M2GState
  | st, [] => some st
  | st, (a, d) :: rest =>
    if (LIMITS_MM a).1 ≤ st.pos.get a + d * st.lastDir.get a ∧
        st.pos.get a + d * st.lastDir.get a ≤ (LIMITS_MM a).2 then
      resolveAxes { st with pos := st.pos.set a (st.pos.get a + d * st.lastDir.get a) } rest
    else if (LIMITS_MM a).1 ≤ st.pos.get a - d * st.lastDir.get a ∧
        st.pos.get a - d * st.lastDir.get a ≤ (LIMITS_MM a).2 then
      resolveAxes
        { pos := st.pos.set a (st.pos.get a - d * st.lastDir.get a),
          lastDir := (st.lastDir.set a (-st.lastDir.get a)).set Axis.Z (-1) } rest
    else
      none

/-- `Midi2Gcode.move`, fuelled.  Requests are association lists mirroring the
`distances` dict (keys distinct when produced by `generate`).  The first
component collects the value of `self._pos` at each `yield`; the second is the
final state, `none` on a raised exception (`ValueError` from `resolveAxes`,
`ZeroDivisionError` when a distance is zero in the splitting branch) or on
fuel exhaustion. -/
def move : ℕ → M2GState → List (Axis × ℚ) → List (AxisMap ℚ) × Option M2GState
  | 0, _, _ => ([], none)
  | fuel + 1, st, distances =>
    if distances.all (fun q => decide (q.2 ≤ max_distance st.pos q.1)) then
      match resolveAxes st distances with
      | some st' => ([st'.pos], some st')
      | none => ([], none)
    else if distances.any (fun q => decide (q.2 = 0)) then ([], none)
    else
      match distances.map (fun q => max_distance st.pos q.1 / q.2) with
      | [] => ([], none)
      | f0 :: fs =>
        match move fuel st (distances.map (fun q => (q.1, q.2 * (fs.foldl min f0)))) with
        | (out1, none) => (out1, none)
        | (out1, some st1) =>
          match move fuel st1 (distances.map (fun q => (q.1, q.2 * (1 - fs.foldl min f0)))) with
          | (out2, os2) => (out1 ++ out2, os2)

/-- `self._last_dir` right after `Midi2Gcode.__init__`. -/
def initial_last_dir : AxisMap ℚ :=
  { x := 1, y := 1, z := 1 }

/-- `self._pos` right after `Midi2Gcode._reset`: `min(limits)` per axis. -/
def reset_pos : AxisMap ℚ :=
  { x := min (LIMITS_MM Axis.X).1 (LIMITS_MM Axis.X).2,
    y := min (LIMITS_MM Axis.Y).1 (LIMITS_MM Axis.Y).2,
    z := min (LIMITS_MM Axis.Z).1 (LIMITS_MM Axis.Z).2 }

/-- The defined start state of a generation run. -/
def startState : M2GState :=
  { pos := reset_pos, lastDir := initial_last_dir }

/-- The travel-limit invariant on a position table. -/
def inLimits (pos : AxisMap ℚ) : Prop :=
  ∀ a, (LIMITS_MM a).1 ≤ pos.get a ∧ pos.get a ≤ (LIMITS_MM a).2

/-- The direction-memory invariant: every remembered direction is ±1. -/
def dirOk (d : AxisMap ℚ) : Prop :=
  ∀ a, d.get a = 1 ∨ d.get a = -1

/-- Sum of absolute per-move deltas of axis `a` along a sequence of emitted
positions, starting from coordinate `c`. -/
def sumAbsDeltas (a : Axis) : ℚ → List (AxisMap ℚ) → ℚ
  | _, [] => 0
  | c, q :: rest => |q.get a - c| + sumAbsDeltas a (q.get a) rest

theorem fit_lemma {lo hi p d dir : ℚ} (hlo : lo ≤ p) (hhi : p ≤ hi)
    (hd : 0 ≤ d) (hdir : dir = 1 ∨ dir = -1)
    (hreach : d ≤ max |p - lo| |p - hi|) :
    (lo ≤ p + d * dir ∧ p + d * dir ≤ hi) ∨ (lo ≤ p - d * dir ∧ p - d * dir ≤ hi) := by
  have h1 : |p - lo| = p - lo := abs_of_nonneg (by linarith)
  have h2 : |p - hi| = hi - p := by
    rw [abs_sub_comm]; exact abs_of_nonneg (by linarith)
  rw [h1, h2, le_max_iff] at hreach
  rcases hdir with h | h <;> subst h <;> rcases hreach with h3 | h3
  · right; constructor <;> linarith
  · left; constructor <;> linarith
  · left; constructor <;> nlinarith
  · right; constructor <;> nlinarith

theorem resolveAxes_spec : ∀ (l : List (Axis × ℚ)) (st : M2GState),
    (l.map Prod.fst).Nodup →
    dirOk st.lastDir →
    inLimits st.pos →
    (∀ q ∈ l, 0 ≤ q.2 ∧ q.2 ≤ max_distance st.pos q.1) →
    ∃ st', resolveAxes st l = some st' ∧
      inLimits st'.pos ∧ dirOk st'.lastDir ∧
      (∀ q ∈ l, |st'.pos.get q.1 - st.pos.get q.1| = q.2) ∧
      (∀ a, a ∉ l.map Prod.fst → st'.pos.get a = st.pos.get a)
  | [], st, _, hdir, hin, _ =>
    ⟨st, rfl, hin, hdir, by simp, fun _ _ => rfl⟩
  | (a, d) :: rest, st, hnd, hdir, hin, hd => by
    obtain ⟨hd0, hdr⟩ := hd (a, d) (List.mem_cons_self _ _)
    have hnd' : (rest.map Prod.fst).Nodup := (List.nodup_cons.mp hnd).2
    have hamem : a ∉ rest.map Prod.fst := (List.nodup_cons.mp hnd).1
    have hfit := fit_lemma (hin a).1 (hin a).2 hd0 (hdir a)
      (by simpa [max_distance] using hdr)
    by_cases hF : (LIMITS_MM a).1 ≤ st.pos.get a + d * st.lastDir.get a ∧
        st.pos.get a + d * st.lastDir.get a ≤ (LIMITS_MM a).2
    · -- forward branch: continue in the remembered direction
      set st₁ : M2GState :=
        { st with pos := st.pos.set a (st.pos.get a + d * st.lastDir.get a) } with hst₁
      have hin₁ : inLimits st₁.pos := by
        intro b
        by_cases hba : b = a
        · subst hba; simpa [hst₁] using hF
        · have : st₁.pos.get b = st.pos.get b := by
            simp only [hst₁]; exact AxisMap.get_set_ne _ _ (fun h => hba h.symm)
          rw [this]; exact hin b
      have hd₁ : ∀ q ∈ rest, 0 ≤ q.2 ∧ q.2 ≤ max_distance st₁.pos q.1 := by
        intro q hq
        have hqa : q.1 ≠ a := fun h => hamem (h ▸ List.mem_map_of_mem Prod.fst hq)
        have hpos : st₁.pos.get q.1 = st.pos.get q.1 := by
          simp only [hst₁]; exact AxisMap.get_set_ne _ _ (fun h => hqa h.symm)
        have hmd : max_distance st₁.pos q.1 = max_distance st.pos q.1 := by
          simp only [max_distance, hpos]
        rw [hmd]
        exact hd q (List.mem_cons_of_mem _ hq)
      obtain ⟨st', heq, hin', hdir', hdelta', hkeep'⟩ :=
        resolveAxes_spec rest st₁ hnd' hdir hin₁ hd₁
      refine ⟨st', ?_, hin', hdir', ?_, ?_⟩
      · simp only [resolveAxes]
        rw [if_pos hF]; exact heq
      · intro q hq
        rcases List.mem_cons.mp hq with h | h
        · subst h
          have h1 : st'.pos.get a = st₁.pos.get a := hkeep' a hamem
          have h2 : st₁.pos.get a = st.pos.get a + d * st.lastDir.get a := by
            simp [hst₁]
          rw [h1, h2]
          have : st.pos.get a + d * st.lastDir.get a - st.pos.get a = d * st.lastDir.get a := by
            ring
          rw [this, abs_mul]
          rcases hdir a with h | h <;> rw [h] <;> simp [abs_of_nonneg hd0]
        · have hqa : q.1 ≠ a := fun hh => hamem (hh ▸ List.mem_map_of_mem Prod.fst h)
          have hpos : st₁.pos.get q.1 = st.pos.get q.1 := by
            simp only [hst₁]; exact AxisMap.get_set_ne _ _ (fun hh => hqa hh.symm)
          have := hdelta' q h
          rwa [hpos] at this
      · intro b hb
        have hb1 : b ≠ a := fun h => hb (h ▸ List.mem_cons_self _ _)
        have hb2 : b ∉ rest.map Prod.fst := fun h => hb (List.mem_cons_of_mem _ h)
        have h1 : st'.pos.get b = st₁.pos.get b := hkeep' b hb2
        have h2 : st₁.pos.get b = st.pos.get b := by
          simp only [hst₁]; exact AxisMap.get_set_ne _ _ (fun h => hb1 h.symm)
        rw [h1, h2]
    · -- inverse branch: flip the direction, then the Z bias line runs
      have hR := hfit.resolve_left hF
      set st₁ : M2GState :=
        { pos := st.pos.set a (st.pos.get a - d * st.lastDir.get a),
          lastDir := (st.lastDir.set a (-st.lastDir.get a)).set Axis.Z (-1) } with hst₁
      have hdir₁ : dirOk st₁.lastDir := by
        intro b
        by_cases hbz : b = Axis.Z
        · subst hbz; right; simp [hst₁]
        · have h1 : st₁.lastDir.get b = (st.lastDir.set a (-st.lastDir.get a)).get b := by
            simp only [hst₁]; exact AxisMap.get_set_ne _ _ (fun h => hbz h.symm)
          by_cases hba : b = a
          · subst hba
            rw [h1, AxisMap.get_set_self]
            rcases hdir b with h | h <;> rw [h] <;> simp
          · rw [h1, AxisMap.get_set_ne _ _ (fun h => hba h.symm)]
            exact hdir b
      have hin₁ : inLimits st₁.pos := by
        intro b
        by_cases hba : b = a
        · subst hba; simpa [hst₁] using hR
        · have : st₁.pos.get b = st.pos.get b := by
            simp only [hst₁]; exact AxisMap.get_set_ne _ _ (fun h => hba h.symm)
          rw [this]; exact hin b
      have hd₁ : ∀ q ∈ rest, 0 ≤ q.2 ∧ q.2 ≤ max_distance st₁.pos q.1 := by
        intro q hq
        have hqa : q.1 ≠ a := fun h => hamem (h ▸ List.mem_map_of_mem Prod.fst hq)
        have hpos : st₁.pos.get q.1 = st.pos.get q.1 := by
          simp only [hst₁]; exact AxisMap.get_set_ne _ _ (fun h => hqa h.symm)
        have hmd : max_distance st₁.pos q.1 = max_distance st.pos q.1 := by
          simp only [max_distance, hpos]
        rw [hmd]
        exact hd q (List.mem_cons_of_mem _ hq)
      obtain ⟨st', heq, hin', hdir', hdelta', hkeep'⟩ :=
        resolveAxes_spec rest st₁ hnd' hdir₁ hin₁ hd₁
      refine ⟨st', ?_, hin', hdir', ?_, ?_⟩
      · simp only [resolveAxes]
        rw [if_neg hF, if_pos hR]; exact heq
      · intro q hq
        rcases List.mem_cons.mp hq with h | h
        · subst h
          have h1 : st'.pos.get a = st₁.pos.get a := hkeep' a hamem
          have h2 : st₁.pos.get a = st.pos.get a - d * st.lastDir.get a := by
            simp [hst₁]
          rw [h1, h2]
          have : st.pos.get a - d * st.lastDir.get a - st.pos.get a = -(d * st.lastDir.get a) := by
            ring
          rw [this, abs_neg, abs_mul]
          rcases hdir a with h | h <;> rw [h] <;> simp [abs_of_nonneg hd0]
        · have hqa : q.1 ≠ a := fun hh => hamem (hh ▸ List.mem_map_of_mem Prod.fst h)
          have hpos : st₁.pos.get q.1 = st.pos.get q.1 := by
            simp only [hst₁]; exact AxisMap.get_set_ne _ _ (fun hh => hqa hh.symm)
          have := hdelta' q h
          rwa [hpos] at this
      · intro b hb
        have hb1 : b ≠ a := fun h => hb (h ▸ List.mem_cons_self _ _)
        have hb2 : b ∉ rest.map Prod.fst := fun h => hb (List.mem_cons_of_mem _ h)
        have h1 : st'.pos.get b = st₁.pos.get b := hkeep' b hb2
        have h2 : st₁.pos.get b = st.pos.get b := by
          simp only [hst₁]; exact AxisMap.get_set_ne _ _ (fun h => hb1 h.symm)
        rw [h1, h2]

theorem foldl_min_le_init {α : Type} [LinearOrder α] :
    ∀ (l : List α) (a : α), l.foldl min a ≤ a
  | [], a => le_refl a
  | x :: xs, a => le_trans (foldl_min_le_init xs (min a x)) (min_le_left a x)

theorem foldl_min_le_mem {α : Type} [LinearOrder α] :
    ∀ (l : List α) (a x : α), x ∈ l → l.foldl min a ≤ x
  | [], _, _, h => absurd h (List.not_mem_nil _)
  | y :: ys, a, x, h => by
    rcases List.mem_cons.mp h with h | h
    · subst h
      exact le_trans (foldl_min_le_init ys (min a x)) (min_le_right a x)
    · exact foldl_min_le_mem ys (min a y) x h

theorem le_foldl_min {α : Type} [LinearOrder α] :
    ∀ (l : List α) (a c : α), c ≤ a → (∀ x ∈ l, c ≤ x) → c ≤ l.foldl min a
  | [], _, _, h, _ => h
  | y :: ys, a, c, h, hall =>
    le_foldl_min ys (min a y) c (le_min h (hall y (List.mem_cons_self _ _)))
      (fun x hx => hall x (List.mem_cons_of_mem _ hx))

theorem foldl_min_eq_or_mem {α : Type} [LinearOrder α] :
    ∀ (l : List α) (a : α), l.foldl min a = a ∨ l.foldl min a ∈ l
  | [], _ => Or.inl rfl
  | y :: ys, a => by
    rw [List.foldl_cons]
    rcases foldl_min_eq_or_mem ys (min a y) with h | h
    · rw [h]
      rcases min_choice a y with h2 | h2
      · rw [h2]; exact Or.inl rfl
      · rw [h2]; exact Or.inr (List.mem_cons_self _ _)
    · exact Or.inr (List.mem_cons_of_mem _ h)

theorem getLast?_append_some {α : Type} :
    ∀ (l1 l2 : List α) (x : α), l2.getLast? = some x → (l1 ++ l2).getLast? = some x
  | [], _, _, h => h
  | a :: l1, l2, x, h => by
    cases l1 with
    | nil =>
      cases l2 with
      | nil => simp at h
      | cons b l2' => rw [List.singleton_append, List.getLast?_cons_cons]; exact h
    | cons b l1' =>
      rw [List.cons_append, List.cons_append, List.getLast?_cons_cons, ← List.cons_append]
      exact getLast?_append_some (b :: l1') l2 x h

theorem sumAbsDeltas_append (a : Axis) :
    ∀ (l1 l2 : List (AxisMap ℚ)) (c : ℚ) (q : AxisMap ℚ), l1.getLast? = some q →
      sumAbsDeltas a c (l1 ++ l2) = sumAbsDeltas a c l1 + sumAbsDeltas a (q.get a) l2
  | [], _, _, _, h => by simp at h
  | [x], l2, c, q, h => by
    obtain rfl : x = q := by simpa using h
    show |x.get a - c| + sumAbsDeltas a (x.get a) l2 =
      (|x.get a - c| + 0) + sumAbsDeltas a (x.get a) l2
    ring
  | x :: y :: ys, l2, c, q, h => by
    rw [List.getLast?_cons_cons] at h
    have ih := sumAbsDeltas_append a (y :: ys) l2 (x.get a) q h
    show |x.get a - c| + sumAbsDeltas a (x.get a) ((y :: ys) ++ l2) =
      (|x.get a - c| + sumAbsDeltas a (x.get a) (y :: ys)) + sumAbsDeltas a (q.get a) l2
    rw [ih]
    ring

theorem resolveAxes_inLimits : ∀ (l : List (Axis × ℚ)) (st st' : M2GState),
    resolveAxes st l = some st' → inLimits st.pos → inLimits st'.pos
  | [], st, st', h, hin => by
    simp only [resolveAxes, Option.some.injEq] at h
    rw [← h]; exact hin
  | (a, d) :: rest, st, st', h, hin => by
    simp only [resolveAxes] at h
    split_ifs at h with h1 h2
    · refine resolveAxes_inLimits rest _ st' h ?_
      intro b
      by_cases hba : b = a
      · subst hba; simpa using h1
      · have heq : (st.pos.set a (st.pos.get a + d * st.lastDir.get a)).get b = st.pos.get b :=
          AxisMap.get_set_ne _ _ (fun hh => hba hh.symm)
        simpa [heq] using hin b
    · refine resolveAxes_inLimits rest _ st' h ?_
      intro b
      by_cases hba : b = a
      · subst hba; simpa using h2
      · have heq : (st.pos.set a (st.pos.get a - d * st.lastDir.get a)).get b = st.pos.get b :=
          AxisMap.get_set_ne _ _ (fun hh => hba hh.symm)
        simpa [heq] using hin b

theorem move_succ_single (fuel : ℕ) (st : M2GState) (l : List (Axis × ℚ))
    (hall : l.all (fun q => decide (q.2 ≤ max_distance st.pos q.1)) = true) :
    move (fuel + 1) st l =
      match resolveAxes st l with
      | some st' => ([st'.pos], some st')
      | none => ([], none) := by
  simp only [move]
  rw [if_pos hall]

theorem move_succ_split (fuel : ℕ) (st : M2GState) (p : Axis × ℚ) (l' : List (Axis × ℚ))
    (hall : ¬(((p :: l').all (fun q => decide (q.2 ≤ max_distance st.pos q.1))) = true))
    (hz : ¬(((p :: l').any (fun q => decide (q.2 = 0))) = true)) :
    move (fuel + 1) st (p :: l') =
      match move fuel st ((p :: l').map (fun q => (q.1, q.2 *
          ((l'.map (fun q => max_distance st.pos q.1 / q.2)).foldl min
            (max_distance st.pos p.1 / p.2))))) with
      | (out1, none) => (out1, none)
      | (out1, some st1) =>
        match move fuel st1 ((p :: l').map (fun q => (q.1, q.2 * (1 -
            ((l'.map (fun q => max_distance st.pos q.1 / q.2)).foldl min
              (max_distance st.pos p.1 / p.2)))))) with
        | (out2, os2) => (out1 ++ out2, os2) := by
  simp only [move]
  rw [if_neg hall, if_neg hz]
  rfl

theorem map_fst_scale (l : List (Axis × ℚ)) (c : ℚ) :
    ((l.map (fun q => (q.1, q.2 * c))).map Prod.fst) = l.map Prod.fst := by
  rw [List.map_map]
  rfl

theorem move_inv : ∀ (fuel : ℕ) (st : M2GState) (l : List (Axis × ℚ)),
    inLimits st.pos →
    (∀ q ∈ (move fuel st l).1, inLimits q) ∧
    (∀ st', (move fuel st l).2 = some st' → inLimits st'.pos)
  | 0, st, l, _ => by simp [move]
  | fuel + 1, st, l, hin => by
    by_cases hall : (l.all (fun q => decide (q.2 ≤ max_distance st.pos q.1))) = true
    · rw [move_succ_single fuel st l hall]
      rcases hres : resolveAxes st l with _ | st₁
      · simp
      · have hin₁ := resolveAxes_inLimits l st st₁ hres hin
        constructor
        · intro q hq
          simp only [List.mem_singleton] at hq
          rw [hq]; exact hin₁
        · intro st' h
          simp only [Option.some.injEq] at h
          rw [← h]; exact hin₁
    · by_cases hz : (l.any fun q => decide (q.2 = 0)) = true
      · have hmv : move (fuel + 1) st l = ([], none) := by
          simp only [move]; rw [if_neg hall, if_pos hz]
        rw [hmv]; simp
      · cases l with
        | nil => exact absurd rfl hall
        | cons p l' =>
          rw [move_succ_split fuel st p l' hall hz]
          set F := ((l'.map (fun q => max_distance st.pos q.1 / q.2)).foldl min
            (max_distance st.pos p.1 / p.2)) with hF
          split
          next out1 heq1 =>
            have hIH1 := move_inv fuel st ((p :: l').map (fun q => (q.1, q.2 * F))) hin
            rw [heq1] at hIH1
            exact ⟨fun q hq => hIH1.1 q hq, by simp⟩
          next out1 st1 heq1 =>
            split
            next out2 os2 heq2 =>
              have hIH1 := move_inv fuel st ((p :: l').map (fun q => (q.1, q.2 * F))) hin
              rw [heq1] at hIH1
              have hin1 : inLimits st1.pos := hIH1.2 st1 rfl
              have hIH2 :=
                move_inv fuel st1 ((p :: l').map (fun q => (q.1, q.2 * (1 - F)))) hin1
              rw [heq2] at hIH2
              constructor
              · intro q hq
                rcases List.mem_append.mp hq with hmem | hmem
                · exact hIH1.1 q hmem
                · exact hIH2.1 q hmem
              · intro st' hst'
                exact hIH2.2 st' hst'

theorem move_main : ∀ (fuel : ℕ) (st : M2GState) (l : List (Axis × ℚ))
    (out : List (AxisMap ℚ)) (st' : M2GState),
    (l.map Prod.fst).Nodup → dirOk st.lastDir → inLimits st.pos →
    (∀ q ∈ l, 0 ≤ q.2) →
    move fuel st l = (out, some st') →
    dirOk st'.lastDir ∧ inLimits st'.pos ∧ out.getLast? = some st'.pos ∧
      (∀ q ∈ l, sumAbsDeltas q.1 (st.pos.get q.1) out = q.2)
  | 0, st, l, out, st', _, _, _, _, h => by
    simp only [move, Prod.mk.injEq] at h
    exact absurd h.2 (by simp)
  | fuel + 1, st, l, out, st', hnd, hdir, hin, hd, h => by
    by_cases hall : (l.all (fun q => decide (q.2 ≤ max_distance st.pos q.1))) = true
    · rw [move_succ_single fuel st l hall] at h
      have hd' : ∀ q ∈ l, 0 ≤ q.2 ∧ q.2 ≤ max_distance st.pos q.1 := by
        intro q hq
        exact ⟨hd q hq, of_decide_eq_true (List.all_eq_true.mp hall q hq)⟩
      obtain ⟨stR, hres, hinR, hdirR, hdelta, _⟩ := resolveAxes_spec l st hnd hdir hin hd'
      rw [hres] at h
      have h1 : [stR.pos] = out := congrArg Prod.fst h
      have h2 : stR = st' := Option.some.inj (congrArg Prod.snd h)
      subst h2
      rw [← h1]
      refine ⟨hdirR, hinR, rfl, ?_⟩
      intro q hq
      simp only [sumAbsDeltas]
      rw [hdelta q hq]
      ring
    · by_cases hz : (l.any fun q => decide (q.2 = 0)) = true
      · have hmv : move (fuel + 1) st l = ([], none) := by
          simp only [move]; rw [if_neg hall, if_pos hz]
        rw [hmv] at h
        exact absurd (congrArg Prod.snd h) (by simp)
      · cases l with
        | nil => exact absurd rfl hall
        | cons p l' =>
          rw [move_succ_split fuel st p l' hall hz] at h
          set F := ((l'.map (fun q => max_distance st.pos q.1 / q.2)).foldl min
            (max_distance st.pos p.1 / p.2)) with hF
          have hzero : ∀ q ∈ (p :: l'), q.2 ≠ 0 := by
            intro q hq h0
            exact hz (List.any_eq_true.mpr ⟨q, hq, by simp [h0]⟩)
          have hqpos : ∀ q ∈ (p :: l'), 0 < q.2 :=
            fun q hq => lt_of_le_of_ne (hd q hq) (Ne.symm (hzero q hq))
          have hmd_nn : ∀ (q : Axis × ℚ), 0 ≤ max_distance st.pos q.1 :=
            fun q => le_trans (abs_nonneg _) (le_max_left _ _)
          have hfnn : 0 ≤ F := by
            rw [hF]
            apply le_foldl_min
            · exact div_nonneg (hmd_nn p) (hqpos p (List.mem_cons_self _ _)).le
            · intro x hx
              obtain ⟨q, hq, rfl⟩ := List.mem_map.mp hx
              exact div_nonneg (hmd_nn q) (hqpos q (List.mem_cons_of_mem _ hq)).le
          have hexists : ∃ q ∈ (p :: l'), max_distance st.pos q.1 < q.2 := by
            by_contra hc
            push_neg at hc
            exact hall (List.all_eq_true.mpr (fun q hq => decide_eq_true (hc q hq)))
          have hflt : F < 1 := by
            obtain ⟨q0, hq0, hgt⟩ := hexists
            have hle : F ≤ max_distance st.pos q0.1 / q0.2 := by
              rcases List.mem_cons.mp hq0 with h0 | h0
              · rw [hF, h0]; exact foldl_min_le_init _ _
              · exact foldl_min_le_mem _ _ _ (List.mem_map_of_mem _ h0)
            calc F ≤ max_distance st.pos q0.1 / q0.2 := hle
              _ < 1 := (div_lt_one (hqpos q0 hq0)).mpr hgt
          split at h
          next out1 heq1 =>
            exact absurd (congrArg Prod.snd h) (by simp)
          next out1 st1 heq1 =>
            split at h
            next out2 os2 heq2 =>
              have hout : out = out1 ++ out2 := (congrArg Prod.fst h).symm
              have hos : os2 = some st' := congrArg Prod.snd h
              rw [hos] at heq2
              have hnd1 : (((p :: l').map (fun q => (q.1, q.2 * F))).map Prod.fst).Nodup := by
                rw [map_fst_scale]; exact hnd
              have hnd2 :
                  (((p :: l').map (fun q => (q.1, q.2 * (1 - F)))).map Prod.fst).Nodup := by
                rw [map_fst_scale]; exact hnd
              have hd1 : ∀ q ∈ (p :: l').map (fun q => (q.1, q.2 * F)), 0 ≤ q.2 := by
                intro q hq
                obtain ⟨r, hr, rfl⟩ := List.mem_map.mp hq
                exact mul_nonneg (hd r hr) hfnn
              have hd2 : ∀ q ∈ (p :: l').map (fun q => (q.1, q.2 * (1 - F))), 0 ≤ q.2 := by
                intro q hq
                obtain ⟨r, hr, rfl⟩ := List.mem_map.mp hq
                exact mul_nonneg (hd r hr) (by linarith)
              obtain ⟨hdir1, hin1, hlast1, hsum1⟩ :=
                move_main fuel st ((p :: l').map (fun q => (q.1, q.2 * F))) out1 st1
                  hnd1 hdir hin hd1 heq1
              obtain ⟨hdir2, hin2, hlast2, hsum2⟩ :=
                move_main fuel st1 ((p :: l').map (fun q => (q.1, q.2 * (1 - F)))) out2 st'
                  hnd2 hdir1 hin1 hd2 heq2
              refine ⟨hdir2, hin2, ?_, ?_⟩
              · rw [hout]; exact getLast?_append_some out1 out2 _ hlast2
              · intro q hq
                have hs1 := hsum1 _ (List.mem_map_of_mem (fun q => (q.1, q.2 * F)) hq)
                have hs2 := hsum2 _ (List.mem_map_of_mem (fun q => (q.1, q.2 * (1 - F))) hq)
                rw [hout, sumAbsDeltas_append q.1 out1 out2 _ st1.pos hlast1, hs1, hs2]
                ring

theorem startState_inLimits : inLimits startState.pos := by
  intro a
  cases a <;> constructor <;>
    norm_num [startState, reset_pos, LIMITS_MM, AxisMap.get]

theorem startState_dirOk : dirOk startState.lastDir := by
  intro a
  cases a <;> exact Or.inl rfl

theorem noflip_keeps_dir : ∀ (l : List (Axis × ℚ)) (st : M2GState),
    (l.map Prod.fst).Nodup →
    (∀ q ∈ l, (LIMITS_MM q.1).1 ≤ st.pos.get q.1 + q.2 * st.lastDir.get q.1 ∧
      st.pos.get q.1 + q.2 * st.lastDir.get q.1 ≤ (LIMITS_MM q.1).2) →
    ∃ st', resolveAxes st l = some st' ∧ st'.lastDir = st.lastDir
  | [], st, _, _ => ⟨st, rfl, rfl⟩
  | (a, d) :: rest, st, hnd, hfit => by
    have hF := hfit (a, d) (List.mem_cons_self _ _)
    have hamem : a ∉ rest.map Prod.fst := (List.nodup_cons.mp hnd).1
    have hfit' : ∀ q ∈ rest,
        (LIMITS_MM q.1).1 ≤ (st.pos.set a (st.pos.get a + d * st.lastDir.get a)).get q.1 +
          q.2 * st.lastDir.get q.1 ∧
        (st.pos.set a (st.pos.get a + d * st.lastDir.get a)).get q.1 +
          q.2 * st.lastDir.get q.1 ≤ (LIMITS_MM q.1).2 := by
      intro q hq
      have hqa : q.1 ≠ a := fun hh => hamem (hh ▸ List.mem_map_of_mem Prod.fst hq)
      have hpos : (st.pos.set a (st.pos.get a + d * st.lastDir.get a)).get q.1 =
          st.pos.get q.1 := AxisMap.get_set_ne _ _ (fun hh => hqa hh.symm)
      rw [hpos]
      exact hfit q (List.mem_cons_of_mem _ hq)
    obtain ⟨st', heq, hdir'⟩ := noflip_keeps_dir rest
      { st with pos := st.pos.set a (st.pos.get a + d * st.lastDir.get a) }
      (List.nodup_cons.mp hnd).2 hfit'
    refine ⟨st', ?_, hdir'⟩
    simp only [resolveAxes]
    rw [if_pos hF]
    exact heq

theorem flip_biases_z (st : M2GState) (a : Axis) (d : ℚ) (rest : List (Axis × ℚ))
    (h1 : ¬((LIMITS_MM a).1 ≤ st.pos.get a + d * st.lastDir.get a ∧
      st.pos.get a + d * st.lastDir.get a ≤ (LIMITS_MM a).2))
    (h2 : (LIMITS_MM a).1 ≤ st.pos.get a - d * st.lastDir.get a ∧
      st.pos.get a - d * st.lastDir.get a ≤ (LIMITS_MM a).2) :
    resolveAxes st ((a, d) :: rest) =
      resolveAxes
        { pos := st.pos.set a (st.pos.get a - d * st.lastDir.get a),
          lastDir := (st.lastDir.set a (-st.lastDir.get a)).set Axis.Z (-1) } rest := by
  simp only [resolveAxes]
  rw [if_neg h1, if_pos h2]

/-- C1: for a planner state within the travel limits (with ±1 direction memory)
and a request of non-negative distances each at most `reach(axis)`
(`max_distance`), `move` emits exactly one position snapshot, and for every
requested axis the emitted coordinate is within that axis's limits and differs
from the prior coordinate by exactly the requested distance in absolute
value. -/
theorem c1_single_move (n : ℕ) (st : M2GState) (l : List (Axis × ℚ))
    (hnd : (l.map Prod.fst).Nodup) (hdir : dirOk st.lastDir) (hin : inLimits st.pos)
    (hd : ∀ q ∈ l, 0 ≤ q.2 ∧ q.2 ≤ max_distance st.pos q.1) :
    ∃ st', move (n + 1) st l = ([st'.pos], some st') ∧
      ∀ q ∈ l, ((LIMITS_MM q.1).1 ≤ st'.pos.get q.1 ∧ st'.pos.get q.1 ≤ (LIMITS_MM q.1).2) ∧
        |st'.pos.get q.1 - st.pos.get q.1| = q.2 := by
  have hall : l.all (fun q => decide (q.2 ≤ max_distance st.pos q.1)) = true :=
    List.all_eq_true.mpr (fun q hq => decide_eq_true (hd q hq).2)
  obtain ⟨st', hres, hin', _, hdelta, _⟩ := resolveAxes_spec l st hnd hdir hin hd
  refine ⟨st', ?_, ?_⟩
  · rw [move_succ_single n st l hall, hres]
  · exact fun q hq => ⟨hin' q.1, hdelta q hq⟩

theorem c1_witness :
    ∃ st', move 1 startState [(Axis.X, 50), (Axis.Z, 100)] = ([st'.pos], some st') ∧
      ∀ q ∈ [(Axis.X, (50:ℚ)), (Axis.Z, 100)],
        ((LIMITS_MM q.1).1 ≤ st'.pos.get q.1 ∧ st'.pos.get q.1 ≤ (LIMITS_MM q.1).2) ∧
        |st'.pos.get q.1 - startState.pos.get q.1| = q.2 :=
  c1_single_move 0 startState [(Axis.X, 50), (Axis.Z, 100)]
    (by decide) startState_dirOk startState_inLimits
    (by
      intro q hq
      fin_cases hq <;> constructor <;>
        norm_num [max_distance, startState, reset_pos, LIMITS_MM, AxisMap.get])

/-- C2 counterexample: from the start state, the request
`{X: 0, Y: 300}` has non-negative distances and the Y distance exceeds its
reach, but `move` raises `ZeroDivisionError` (the X fraction divides by zero)
before emitting anything, so the per-axis sums of absolute deltas are 0, not
the requested distances. -/
theorem c2_counterexample :
    move 5 startState [(Axis.X, 0), (Axis.Y, 300)] = ([], none) ∧
    (∀ q ∈ [(Axis.X, (0:ℚ)), (Axis.Y, 300)], 0 ≤ q.2) ∧
    max_distance startState.pos Axis.Y < 300 ∧
    sumAbsDeltas Axis.Y (startState.pos.get Axis.Y)
      (move 5 startState [(Axis.X, 0), (Axis.Y, 300)]).1 ≠ 300 := by
  have hmv : move 5 startState [(Axis.X, 0), (Axis.Y, 300)] = ([], none) := by
    norm_num [move, resolveAxes, startState, reset_pos, initial_last_dir, LIMITS_MM,
      max_distance, AxisMap.get, AxisMap.set]
  refine ⟨hmv, ?_, ?_, ?_⟩
  · intro q hq
    fin_cases hq <;> norm_num
  · norm_num [max_distance, startState, reset_pos, LIMITS_MM, AxisMap.get]
  · rw [hmv]
    norm_num [sumAbsDeltas]

/-- C2 (amended: all requested distances strictly positive): when at least one
axis's requested distance exceeds its reach, the splitting recursion of `move`
emits snapshots whose absolute per-move coordinate deltas sum, per requested
axis, to the originally requested distance. -/
theorem c2_split_total_distance (fuel : ℕ) (st : M2GState) (l : List (Axis × ℚ))
    (out : List (AxisMap ℚ)) (st' : M2GState)
    (hnd : (l.map Prod.fst).Nodup) (hdir : dirOk st.lastDir) (hin : inLimits st.pos)
    (hpos : ∀ q ∈ l, 0 < q.2)
    (hexceed : ∃ q ∈ l, max_distance st.pos q.1 < q.2)
    (hrun : move fuel st l = (out, some st')) :
    ∀ q ∈ l, sumAbsDeltas q.1 (st.pos.get q.1) out = q.2 :=
  (move_main fuel st l out st' hnd hdir hin (fun q hq => (hpos q hq).le) hrun).2.2.2

theorem c2_witness :
    sumAbsDeltas Axis.X (startState.pos.get Axis.X)
      [({ x := 210, y := 10, z := 10 } : AxisMap ℚ), { x := 110, y := 10, z := 10 }] = 300 :=
  c2_split_total_distance 2 startState [(Axis.X, 300)]
    [{ x := 210, y := 10, z := 10 }, { x := 110, y := 10, z := 10 }]
    { pos := { x := 110, y := 10, z := 10 }, lastDir := { x := -1, y := 1, z := -1 } }
    (by decide) startState_dirOk startState_inLimits
    (by intro q hq; fin_cases hq <;> norm_num)
    (by
      refine ⟨(Axis.X, 300), List.mem_cons_self _ _, ?_⟩
      norm_num [max_distance, startState, reset_pos, LIMITS_MM, AxisMap.get])
    (by
      norm_num [move, resolveAxes, startState, reset_pos, initial_last_dir, LIMITS_MM,
        max_distance, AxisMap.get, AxisMap.set])
    (Axis.X, 300) (List.mem_cons_self _ _)

/-- C3: every position snapshot emitted by `move` from a state within the
travel limits (in particular from the defined start position) satisfies the
travel-limit invariant. -/
theorem c3_emitted_in_limits (fuel : ℕ) (st : M2GState) (l : List (Axis × ℚ))
    (hin : inLimits st.pos) :
    ∀ q ∈ (move fuel st l).1, inLimits q :=
  (move_inv fuel st l hin).1

theorem c3_witness :
    (LIMITS_MM Axis.X).1 ≤ ({ x := 60, y := 10, z := 10 } : AxisMap ℚ).get Axis.X ∧
    ({ x := 60, y := 10, z := 10 } : AxisMap ℚ).get Axis.X ≤ (LIMITS_MM Axis.X).2 :=
  c3_emitted_in_limits 1 startState [(Axis.X, 50)] startState_inLimits
    { x := 60, y := 10, z := 10 }
    (by
      norm_num [move, resolveAxes, startState, reset_pos, initial_last_dir, LIMITS_MM,
        max_distance, AxisMap.get, AxisMap.set])
    Axis.X

/-- C4 counterexample: the elementary move `{X: 50}` from the start state is
resolved entirely in the remembered direction, and the remembered Z-axis
direction stays `+1` afterwards — the "force Z to −1" line is skipped by the
`continue` of the first branch, so the bias is not unconditional. -/
theorem c4_counterexample :
    ((move 1 startState [(Axis.X, 50)]).2.map (fun st => st.lastDir.get Axis.Z)) = some 1 ∧
    (1 : ℚ) ≠ -1 := by
  constructor
  · norm_num [move, resolveAxes, startState, reset_pos, initial_last_dir, LIMITS_MM,
      max_distance, AxisMap.get, AxisMap.set]
  · norm_num

/-- C4 (amended): the forced "prefer Z descending" bias is applied only when an
axis resolves through the inverse-direction branch, immediately after that
axis, within the loop: (i) a move in which every requested axis fits in its
remembered direction leaves the whole direction memory — including Z's —
unchanged; (ii) when the leading axis must flip, the remembered Z direction is
forced to −1 before the remaining axes of the same move are resolved. -/
theorem c4_z_bias :
    (∀ (st : M2GState) (l : List (Axis × ℚ)), (l.map Prod.fst).Nodup →
      (∀ q ∈ l, (LIMITS_MM q.1).1 ≤ st.pos.get q.1 + q.2 * st.lastDir.get q.1 ∧
        st.pos.get q.1 + q.2 * st.lastDir.get q.1 ≤ (LIMITS_MM q.1).2) →
      ∃ st', resolveAxes st l = some st' ∧ st'.lastDir = st.lastDir) ∧
    (∀ (st : M2GState) (a : Axis) (d : ℚ) (rest : List (Axis × ℚ)),
      ¬((LIMITS_MM a).1 ≤ st.pos.get a + d * st.lastDir.get a ∧
        st.pos.get a + d * st.lastDir.get a ≤ (LIMITS_MM a).2) →
      ((LIMITS_MM a).1 ≤ st.pos.get a - d * st.lastDir.get a ∧
        st.pos.get a - d * st.lastDir.get a ≤ (LIMITS_MM a).2) →
      resolveAxes st ((a, d) :: rest) =
        resolveAxes
          { pos := st.pos.set a (st.pos.get a - d * st.lastDir.get a),
            lastDir := (st.lastDir.set a (-st.lastDir.get a)).set Axis.Z (-1) } rest) :=
  ⟨fun st l hnd hfit => noflip_keeps_dir l st hnd hfit, flip_biases_z⟩

theorem c4_witness :
    (∃ st', resolveAxes startState [(Axis.X, 50)] = some st' ∧
      st'.lastDir = startState.lastDir) ∧
    resolveAxes { pos := { x := 205, y := 10, z := 100 }, lastDir := { x := 1, y := 1, z := 1 } }
        [(Axis.X, 10), (Axis.Z, 5)] =
      resolveAxes
        { pos := { x := 195, y := 10, z := 100 },
          lastDir := { x := -1, y := 1, z := -1 } } [(Axis.Z, 5)] := by
  constructor
  · exact c4_z_bias.1 startState [(Axis.X, 50)] (by decide)
      (by
        intro q hq
        fin_cases hq
        constructor <;>
          norm_num [startState, reset_pos, initial_last_dir, LIMITS_MM, AxisMap.get])
  · have h := c4_z_bias.2
      { pos := { x := 205, y := 10, z := 100 }, lastDir := { x := 1, y := 1, z := 1 } }
      Axis.X 10 [(Axis.Z, 5)]
      (by norm_num [LIMITS_MM, AxisMap.get]) (by norm_num [LIMITS_MM, AxisMap.get])
    norm_num [AxisMap.set, AxisMap.get] at h ⊢
    exact h

/-- A byte source with a cursor, modelling the opened file of `MidiFile`.
`pos` is `f.tell()`. -/
structure ByteStream where
  data : List ℕ
  pos : ℕ
  deriving DecidableEq

/-- `f.read(n)`: returns up to `n` bytes — short (possibly empty) at end of
stream, exactly like a Python binary file read — and advances the cursor by
the number of bytes actually read. -/
def fread (f : ByteStream) (n : ℕ) : List ℕ × ByteStream :=
  ((f.data.drop f.pos).take n, { f with pos := f.pos + ((f.data.drop f.pos).take n).length })

/-- `int.from_bytes(bs, 'big')` (also the default byteorder): big-endian,
yielding 0 on an empty byte string. -/
def fromBytesBE (bs : List ℕ) : ℕ :=
  bs.foldl (fun acc b => acc * 256 + b) 0

/-- `MidiFile._read_u32`. -/
def read_u32 (f : ByteStream) : ℕ × ByteStream :=
  (fromBytesBE (fread f 4).1, (fread f 4).2)

/-- `MidiFile._read_u16`. -/
def read_u16 (f : ByteStream) : ℕ × ByteStream :=
  (fromBytesBE (fread f 2).1, (fread f 2).2)

/-- The loop body of `MidiFile._read_varlength` over the remaining bytes:
returns the decoded value and the number of bytes consumed.  At end of stream
`f.read(1)` yields `b''`, decoded as the byte 0, which has a clear top bit and
ends the loop. -/
def varlengthAux : List ℕ → ℕ → ℕ × ℕ
  | [], acc => (acc * 128, 0)
  | b :: rest, acc =>
    if b &&& 0x80 = 0 then (acc * 128 + (b &&& 0x7f), 1)
    else
      ((varlengthAux rest (acc * 128 + (b &&& 0x7f))).1,
        (varlengthAux rest (acc * 128 + (b &&& 0x7f))).2 + 1)

/-- `MidiFile._read_varlength`. -/
def read_varlength (f : ByteStream) : ℕ × ByteStream :=
  ((varlengthAux (f.data.drop f.pos) 0).1,
    { f with pos := f.pos + (varlengthAux (f.data.drop f.pos) 0).2 })

/-- The bytes `b'MThd'`. -/
def mthd : List ℕ := [0x4d, 0x54, 0x68, 0x64]

/-- The bytes `b'MTrk'`. -/
def mtrk : List ℕ := [0x4d, 0x54, 0x72, 0x6b]

/-- `MidiFile._parse_header`: returns `(format, ntrks, division,
ticks_per_second, stream)`.  The SMPTE branch of the source reads the
undefined name `n_frame_per_second` (a typo for `n_frames_per_second`) and
therefore raises `NameError` whenever the top bit of division is set; this is
modelled as `none`. -/
def parse_header (f : ByteStream) : Option (ℕ × ℕ × ℕ × ℚ × ByteStream) :=
  let r0 := fread f 4
  if r0.1 = mthd then
    let r1 := read_u32 r0.2
    if r1.1 = 6 then
      let r2 := read_u16 r1.2
      let r3 := read_u16 r2.2
      let r4 := read_u16 r3.2
      if r4.1 &&& 0x8000 = 0 then some (r2.1, r3.1, r4.1, 0, r4.2)
      else none
    else none
  else none

/-- `MidiFile._msglen`: payload length per channel-voice status high nibble;
`none` models the `KeyError` for any other nibble. -/
def msglen (statusbyte : ℕ) : Option ℕ :=
  if statusbyte &&& 0xf0 = 0x80 then some 2
  else if statusbyte &&& 0xf0 = 0x90 then some 2
  else if statusbyte &&& 0xf0 = 0xa0 then some 2
  else if statusbyte &&& 0xf0 = 0xb0 then some 2
  else if statusbyte &&& 0xf0 = 0xc0 then some 1
  else if statusbyte &&& 0xf0 = 0xd0 then some 1
  else if statusbyte &&& 0xf0 = 0xe0 then some 2
  else none

/-- `MidiFile._parse_msg`: takes the division, the current `ticks_per_second`,
the remembered running status `self._last_msg_type` (`none` before it is first
assigned; reading it then raises `AttributeError`, modelled as `none`) and the
stream.  Returns `(returned msg_type, msg, new last status, new
ticks_per_second, stream)`.  The final `raise ValueError` for status bytes in
`0xf1..0xfe` other than `0xf7`, and the `ZeroDivisionError` when a tempo
payload decodes to 0, are modelled as `none`. -/
def parse_msg (division : ℕ) (tps : ℚ) (lastMsg : Option ℕ) (f : ByteStream) :
    Option (ℕ × List ℕ × Option ℕ × ℚ × ByteStream) :=
  let r0 := fread f 1
  let msg_type := fromBytesBE r0.1
  if msg_type < 0x80 then
    match lastMsg with
    | none => none
    | some lm =>
      match msglen lm with
      | none => none
      | some len =>
        let r1 := fread r0.2 (len - 1)
        some (lm, msg_type :: r1.1, lastMsg, tps, r1.2)
  else if msg_type < 0xf0 then
    match msglen msg_type with
    | none => none
    | some len =>
      let r1 := fread r0.2 len
      some (msg_type, r1.1, some msg_type, tps, r1.2)
  else if msg_type = 0xf0 ∨ msg_type = 0xf7 then
    let r1 := read_varlength r0.2
    let r2 := fread r1.2 r1.1
    some (msg_type, r2.1, lastMsg, tps, r2.2)
  else if msg_type = 0xff then
    let rt := fread r0.2 1
    let meta_type := fromBytesBE rt.1
    let r1 := read_varlength rt.2
    let r2 := fread r1.2 r1.1
    if meta_type = 0x51 ∧ tps = 0 then
      if division &&& 0x8000 = 0 then
        if fromBytesBE r2.1 = 0 then none
        else some (meta_type, r2.1, lastMsg,
          1000000 / (fromBytesBE r2.1 : ℚ) * (division : ℚ), r2.2)
      else some (meta_type, r2.1, lastMsg, tps, r2.2)
    else some (meta_type, r2.1, lastMsg, tps, r2.2)
  else none

/-- One parsed track: a list of `(absolute tick, status byte, payload)`. -/
abbrev Track := List (ℕ × ℕ × List ℕ)

/-- The `while f.tell() < end_pos` loop of `MidiFile._parse_track`, fuelled.
When the stream ends before `end_pos` the Python loop re-reads empty strings
forever (or raises); fuel exhaustion models that as `none`. -/
def parse_track_loop (division : ℕ) :
    ℕ → ℚ → Option ℕ → ByteStream → ℕ → ℕ → Track →
    Option (Track × ℚ × Option ℕ × ByteStream)
  | 0, _, _, _, _, _, _ => none
  | fuel + 1, tps, lastMsg, f, endPos, tickPos, acc =>
    if f.pos < endPos then
      let rd := read_varlength f
      match parse_msg division tps lastMsg rd.2 with
      | none => none
      | some (mt, msg, lastMsg2, tps2, f2) =>
        parse_track_loop division fuel tps2 lastMsg2 f2 endPos (tickPos + rd.1)
          (acc ++ [(tickPos + rd.1, mt, msg)])
    else some (acc, tps, lastMsg, f)

/-- `MidiFile._parse_track`. -/
def parse_track (division : ℕ) (fuel : ℕ) (tps : ℚ) (lastMsg : Option ℕ)
    (f : ByteStream) : Option (Track × ℚ × Option ℕ × ByteStream) :=
  let r0 := fread f 4
  if r0.1 = mtrk then
    let r1 := read_u32 r0.2
    parse_track_loop division fuel tps lastMsg r1.2 (r1.2.pos + r1.1) 0 []
  else none

/-- The `for _ in range(self.ntrks)` loop of `MidiFile._parse`. -/
def parse_tracks (division : ℕ) (fuel : ℕ) :
    ℕ → ℚ → Option ℕ → ByteStream → Option (List Track × ℚ × ByteStream)
  | 0, tps, _, f => some ([], tps, f)
  | n + 1, tps, lastMsg, f =>
    match parse_track division fuel tps lastMsg f with
    | none => none
    | some (tr, tps2, lastMsg2, f2) =>
      match parse_tracks division fuel n tps2 lastMsg2 f2 with
      | none => none
      | some (trs, tps3, f3) => some (tr :: trs, tps3, f3)

/-- The final state of a successfully constructed `MidiFile`. -/
structure MidiData where
  format : ℕ
  ntrks : ℕ
  division : ℕ
  ticks_per_second : ℚ
  tracks : List Track
  deriving DecidableEq

/-- `MidiFile.__init__` / `MidiFile._parse` over a whole byte source:
header, then `ntrks` tracks.  The loop fuel `data.length + 1` is enough for
every terminating run, since each loop iteration that continues consumes at
least one byte. -/
def parse_midi (data : List ℕ) : Option MidiData :=
  match parse_header { data := data, pos := 0 } with
  | none => none
  | some (format, ntrks, division, tps, f) =>
    match parse_tracks division (data.length + 1) ntrks tps none f with
    | none => none
    | some (tracks, tps2, _) =>
      some
        { format := format, ntrks := ntrks, division := division,
          ticks_per_second := tps2, tracks := tracks }

/-- C5: `_parse_msg` never overwrites a non-zero `ticks_per_second`, and when
it does change it, the message was a tempo meta event (returned type `0x51`),
`ticks_per_second` was still unresolved (0), the division is not
SMPTE-encoded, and the new value is `(1,000,000 / mpqn) × division` with
`mpqn` the payload read as a big-endian integer. -/
theorem c5_tempo_once (division : ℕ) (tps : ℚ) (lastMsg : Option ℕ) (f : ByteStream)
    (t : ℕ) (m : List ℕ) (lastMsg2 : Option ℕ) (tps2 : ℚ) (f2 : ByteStream)
    (h : parse_msg division tps lastMsg f = some (t, m, lastMsg2, tps2, f2)) :
    (tps ≠ 0 → tps2 = tps) ∧
    (tps2 ≠ tps → tps = 0 ∧ division &&& 0x8000 = 0 ∧ t = 0x51 ∧ fromBytesBE m ≠ 0 ∧
      tps2 = 1000000 / (fromBytesBE m : ℚ) * (division : ℚ)) := by
  simp only [parse_msg] at h
  split at h
  · -- running status
    split at h
    · exact absurd h (by simp)
    · split at h
      · exact absurd h (by simp)
      · simp only [Option.some.injEq, Prod.mk.injEq] at h
        obtain ⟨-, -, -, h4, -⟩ := h
        exact ⟨fun _ => h4.symm, fun hne => absurd h4.symm hne⟩
  · split at h
    · -- channel voice message
      split at h
      · exact absurd h (by simp)
      · simp only [Option.some.injEq, Prod.mk.injEq] at h
        obtain ⟨-, -, -, h4, -⟩ := h
        exact ⟨fun _ => h4.symm, fun hne => absurd h4.symm hne⟩
    · split at h
      · -- sysex / escape
        simp only [Option.some.injEq, Prod.mk.injEq] at h
        obtain ⟨-, -, -, h4, -⟩ := h
        exact ⟨fun _ => h4.symm, fun hne => absurd h4.symm hne⟩
      · split at h
        · -- meta event
          split at h
          · -- tempo meta, tps still unresolved
            split at h
            · -- non-SMPTE division
              split at h
              · exact absurd h (by simp)
              · simp only [Option.some.injEq, Prod.mk.injEq] at h
                obtain ⟨ht, hm, -, h4, -⟩ := h
                rename_i hcond hdiv hmpq
                refine ⟨fun hne => absurd hcond.2 hne, fun _ => ?_⟩
                refine ⟨hcond.2, hdiv, ?_, ?_, ?_⟩
                · rw [← ht]; exact hcond.1
                · rw [← hm]; exact hmpq
                · rw [← hm]; exact h4.symm
            · -- SMPTE division: no update
              simp only [Option.some.injEq, Prod.mk.injEq] at h
              obtain ⟨-, -, -, h4, -⟩ := h
              exact ⟨fun _ => h4.symm, fun hne => absurd h4.symm hne⟩
          · -- not a tempo meta or already resolved: no update
            simp only [Option.some.injEq, Prod.mk.injEq] at h
            obtain ⟨-, -, -, h4, -⟩ := h
            exact ⟨fun _ => h4.symm, fun hne => absurd h4.symm hne⟩
        · exact absurd h (by simp)

set_option maxHeartbeats 2000000 in
theorem c5_witness :
    ((7:ℚ) ≠ 0 → (7:ℚ) = 7) ∧
    ((0:ℚ) = 0 ∧ 480 &&& 0x8000 = 0 ∧ 0x51 = 0x51 ∧ fromBytesBE [0x07, 0xa1, 0x20] ≠ 0 ∧
      (960:ℚ) = 1000000 / ((fromBytesBE [0x07, 0xa1, 0x20] : ℕ) : ℚ) * ((480:ℕ) : ℚ)) := by
  constructor
  · exact (c5_tempo_once 480 7 none
      { data := [0xff, 0x51, 0x03, 0x07, 0xa1, 0x20], pos := 0 }
      0x51 [0x07, 0xa1, 0x20] none 7
      { data := [0xff, 0x51, 0x03, 0x07, 0xa1, 0x20], pos := 6 } rfl).1
  · have h2 := (c5_tempo_once 480 0 none
      { data := [0xff, 0x51, 0x03, 0x07, 0xa1, 0x20], pos := 0 }
      0x51 [0x07, 0xa1, 0x20] none
      (1000000 / ((fromBytesBE [0x07, 0xa1, 0x20] : ℕ) : ℚ) * ((480:ℕ) : ℚ))
      { data := [0xff, 0x51, 0x03, 0x07, 0xa1, 0x20], pos := 6 } rfl).2
      (by norm_num [fromBytesBE, List.foldl])
    exact ⟨h2.1, h2.2.1, h2.2.2.1, h2.2.2.2.1, by norm_num [fromBytesBE, List.foldl]⟩

/-- Second definition, following the spec's words, of the SMPTE resolution the
source intends: `ticks_per_second` = frames-per-second (bits 8–14 of division)
times ticks-per-frame (bits 0–7 of division). -/
def smpte_ticks_per_second_spec (division : ℕ) : ℕ :=
  ((division &&& 0x7f00) >>> 8) * (division &&& 0xff)

set_option maxHeartbeats 1600000 in
/-- C6 (code bug): for every well-formed header whose division has the top bit
set, `_parse_header` raises `NameError` (`n_frame_per_second` is an undefined
name — a typo for `n_frames_per_second`), so parsing aborts instead of
resolving `ticks_per_second` to frames-per-second × ticks-per-frame as the
spec states; shown in general and evaluated at the failing input
`division = 0x9940` (25 fps × 64 ticks/frame = 1600). -/
theorem c6_smpte_header :
    (∀ data : List ℕ, 14 ≤ data.length → data.take 4 = mthd →
      (data.drop 4).take 4 = [0, 0, 0, 6] →
      fromBytesBE ((data.drop 12).take 2) &&& 0x8000 ≠ 0 → parse_midi data = none) ∧
    parse_midi [0x4d, 0x54, 0x68, 0x64, 0, 0, 0, 6, 0, 0, 0, 0, 0x99, 0x40] = none ∧
    smpte_ticks_per_second_spec 0x9940 = 1600 := by
  refine ⟨?_, by decide, by decide⟩
  intro data hlen h4 h8 hdiv
  have l4 : (data.take 4).length = 4 := by rw [h4]; rfl
  have l8 : ((data.drop 4).take 4).length = 4 := by rw [h8]; rfl
  have m1 : 2 ⊓ (data.length - 8) = 2 := min_eq_left (by omega)
  have m2 : 2 ⊓ (data.length - 10) = 2 := min_eq_left (by omega)
  have m3 : 2 ⊓ (data.length - 12) = 2 := min_eq_left (by omega)
  have hdiv2 : ¬(List.foldl (fun acc b => acc * 256 + b) 0 (List.take 2 (List.drop 12 data))
      &&& 0x8000 = 0) := by
    simpa [fromBytesBE] using hdiv
  simp only [parse_midi, parse_header, read_u32, read_u16, fread, List.drop_zero,
    List.drop_drop]
  rw [if_pos h4]
  simp only [l4, h8, l8]
  norm_num [fromBytesBE, m1, m2, m3]
  rw [if_neg hdiv2]

theorem c6_witness :
    parse_midi [0x4d, 0x54, 0x68, 0x64, 0, 0, 0, 6, 0, 0, 0, 0, 0x99, 0x40] = none :=
  c6_smpte_header.1 [0x4d, 0x54, 0x68, 0x64, 0, 0, 0, 6, 0, 0, 0, 0, 0x99, 0x40]
    (by decide) (by decide) (by decide) (by decide)

theorem fromBytesBE_single (t : ℕ) : fromBytesBE [t] = t := by
  simp [fromBytesBE]

theorem drop_eq_cons_of_head? (l : List ℕ) (n x : ℕ) (h : (l.drop n).head? = some x) :
    l.drop n = x :: l.drop (n + 1) := by
  cases hd : l.drop n with
  | nil => rw [hd] at h; simp at h
  | cons y ys =>
    rw [hd] at h
    simp only [List.head?_cons, Option.some.injEq] at h
    have hys : ys = l.drop (n + 1) := by
      rw [← List.tail_drop l n, hd]
      rfl
    rw [h, hys]

theorem parse_msg_unknown_status (division : ℕ) (tps : ℚ) (lastMsg : Option ℕ)
    (f : ByteStream) (h1 : 0xf0 < fromBytesBE ((fread f 1).1))
    (h2 : fromBytesBE ((fread f 1).1) < 0xff) (h3 : fromBytesBE ((fread f 1).1) ≠ 0xf7) :
    parse_msg division tps lastMsg f = none := by
  simp only [parse_msg]
  rw [if_neg (by omega), if_neg (by omega), if_neg ?_, if_neg (by omega)]
  rintro (h | h)
  · omega
  · exact h3 h

set_option maxHeartbeats 1600000 in
theorem parse_header_at (data : List ℕ) (hlen : 14 ≤ data.length)
    (h4 : data.take 4 = mthd) (h8 : (data.drop 4).take 4 = [0, 0, 0, 6])
    (hdiv : fromBytesBE ((data.drop 12).take 2) &&& 0x8000 = 0) :
    parse_header { data := data, pos := 0 } =
      some (fromBytesBE ((data.drop 8).take 2), fromBytesBE ((data.drop 10).take 2),
        fromBytesBE ((data.drop 12).take 2), 0, { data := data, pos := 14 }) := by
  have l4 : (data.take 4).length = 4 := by rw [h4]; rfl
  have l8 : ((data.drop 4).take 4).length = 4 := by rw [h8]; rfl
  have m1 : 2 ⊓ (data.length - 8) = 2 := min_eq_left (by omega)
  have m2 : 2 ⊓ (data.length - 10) = 2 := min_eq_left (by omega)
  have m3 : 2 ⊓ (data.length - 12) = 2 := min_eq_left (by omega)
  have hdiv2 : List.foldl (fun acc b => acc * 256 + b) 0 (List.take 2 (List.drop 12 data))
      &&& 0x8000 = 0 := by
    simpa [fromBytesBE] using hdiv
  simp only [parse_header, read_u32, read_u16, fread, List.drop_zero, List.drop_drop]
  rw [if_pos h4]
  simp only [l4, h8, l8]
  norm_num [fromBytesBE, m1, m2, m3]
  intro hc
  exact absurd hdiv2 hc

theorem parse_track_bad_tag (division fuel : ℕ) (tps : ℚ) (lastMsg : Option ℕ)
    (f : ByteStream) (h : (f.data.drop f.pos).take 4 ≠ mtrk) :
    parse_track division fuel tps lastMsg f = none := by
  simp only [parse_track, fread]
  rw [if_neg h]

theorem parse_tracks_head_none (division fuel n : ℕ) (tps : ℚ) (lastMsg : Option ℕ)
    (f : ByteStream) (h : parse_track division fuel tps lastMsg f = none) :
    parse_tracks division fuel (n + 1) tps lastMsg f = none := by
  simp only [parse_tracks, h]

theorem parse_track_loop_msg_none (division fuel : ℕ) (tps : ℚ) (lastMsg : Option ℕ)
    (f : ByteStream) (endPos tickPos : ℕ) (acc : Track)
    (hlt : f.pos < endPos)
    (hmsg : parse_msg division tps lastMsg (read_varlength f).2 = none) :
    parse_track_loop division (fuel + 1) tps lastMsg f endPos tickPos acc = none := by
  simp only [parse_track_loop]
  rw [if_pos hlt, hmsg]

set_option maxHeartbeats 4000000 in
/-- C9 (amended): a bad chunk magic — of the header or of a track —, a
header-chunk length other than 6, and an unrecognized status byte
(`0xF1..0xFE` except `0xF7`) each abort the entire parse with an error and no
partial result; a premature end of stream, by contrast, is not reliably
detected — reads at end of stream return empty byte strings decoded as zero
(see the counterexample).  The status-byte case is stated both for the whole
parse (the first event of the first track) and for `_parse_msg` at any
position. -/
theorem c9_abort_cases :
    (∀ data : List ℕ, data.take 4 ≠ mthd → parse_midi data = none) ∧
    (∀ data : List ℕ, data.take 4 = mthd → fromBytesBE ((data.drop 4).take 4) ≠ 6 →
      parse_midi data = none) ∧
    (∀ data : List ℕ, 14 ≤ data.length → data.take 4 = mthd →
      (data.drop 4).take 4 = [0, 0, 0, 6] →
      fromBytesBE ((data.drop 12).take 2) &&& 0x8000 = 0 →
      1 ≤ fromBytesBE ((data.drop 10).take 2) →
      (data.drop 14).take 4 ≠ mtrk → parse_midi data = none) ∧
    (∀ (data : List ℕ) (b0 t : ℕ), 22 ≤ data.length → data.take 4 = mthd →
      (data.drop 4).take 4 = [0, 0, 0, 6] →
      fromBytesBE ((data.drop 12).take 2) &&& 0x8000 = 0 →
      1 ≤ fromBytesBE ((data.drop 10).take 2) →
      (data.drop 14).take 4 = mtrk →
      1 ≤ fromBytesBE ((data.drop 18).take 4) →
      (data.drop 22).head? = some b0 → b0 &&& 0x80 = 0 →
      (data.drop 23).head? = some t →
      0xf0 < t → t < 0xff → t ≠ 0xf7 →
      parse_midi data = none) ∧
    (∀ (division : ℕ) (tps : ℚ) (lastMsg : Option ℕ) (f : ByteStream),
      0xf0 < fromBytesBE ((fread f 1).1) → fromBytesBE ((fread f 1).1) < 0xff →
      fromBytesBE ((fread f 1).1) ≠ 0xf7 → parse_msg division tps lastMsg f = none) := by
  refine ⟨?_, ?_, ?_, ?_, parse_msg_unknown_status⟩
  · intro data hm
    simp only [parse_midi, parse_header, fread, List.drop_zero]
    rw [if_neg hm]
  · intro data hm hlen
    have l4 : (data.take 4).length = 4 := by rw [hm]; rfl
    simp only [parse_midi, parse_header, read_u32, fread, List.drop_zero, l4, Nat.zero_add]
    rw [if_pos hm, if_neg hlen]
  · intro data hlen h4 h8 hdiv hn htag
    obtain ⟨n, hn2⟩ : ∃ n, fromBytesBE ((data.drop 10).take 2) = n + 1 :=
      ⟨fromBytesBE ((data.drop 10).take 2) - 1, by omega⟩
    have htrk : parse_track (fromBytesBE ((data.drop 12).take 2)) (data.length + 1) 0 none
        { data := data, pos := 14 } = none :=
      parse_track_bad_tag _ _ _ _ _ htag
    simp only [parse_midi, parse_header_at data hlen h4 h8 hdiv, hn2,
      parse_tracks_head_none (fromBytesBE ((data.drop 12).take 2)) (data.length + 1) n 0
        none { data := data, pos := 14 } htrk]
  · intro data b0 t hlen h4 h8 hdiv hn htag hL hb0 hb0top ht htlo hthi htne
    obtain ⟨n, hn2⟩ : ∃ n, fromBytesBE ((data.drop 10).take 2) = n + 1 :=
      ⟨fromBytesBE ((data.drop 10).take 2) - 1, by omega⟩
    have h23 : data.drop 23 = t :: data.drop 24 := drop_eq_cons_of_head? data 23 t ht
    have hrv : (read_varlength { data := data, pos := 22 }).2 =
        { data := data, pos := 23 } := by
      simp only [read_varlength]
      rw [drop_eq_cons_of_head? data 22 b0 hb0]
      simp only [varlengthAux]
      rw [if_pos hb0top]
      rfl
    have hf1 : fromBytesBE ((fread { data := data, pos := 23 } 1).1) = t := by
      have ht1 : (fread ({ data := data, pos := 23 } : ByteStream) 1).1 = [t] := by
        simp only [fread]
        rw [h23]
        rfl
      rw [ht1, fromBytesBE_single]
    have hmsg1 : parse_msg (fromBytesBE ((data.drop 12).take 2)) 0 none
        { data := data, pos := 23 } = none :=
      parse_msg_unknown_status _ _ _ _ (by rw [hf1]; exact htlo) (by rw [hf1]; exact hthi)
        (by rw [hf1]; exact htne)
    have l14 : ((data.drop 14).take 4).length = 4 := by rw [htag]; rfl
    have m18 : 4 ⊓ (data.length - 18) = 4 := min_eq_left (by omega)
    have htrk : parse_track (fromBytesBE ((data.drop 12).take 2)) (data.length + 1) 0 none
        { data := data, pos := 14 } = none := by
      simp only [parse_track, read_u32, fread, List.drop_drop]
      rw [if_pos htag]
      simp only [l14]
      norm_num [m18]
      exact parse_track_loop_msg_none _ data.length _ _ _ _ _ _
        (by
          show (22 : ℕ) < 22 + fromBytesBE ((data.drop 18).take 4)
          omega)
        (by rw [hrv]; exact hmsg1)
    simp only [parse_midi, parse_header_at data (by omega) h4 h8 hdiv, hn2,
      parse_tracks_head_none (fromBytesBE ((data.drop 12).take 2)) (data.length + 1) n 0
        none { data := data, pos := 14 } htrk]

/-- C9 counterexample: a stream ending right after the header chunk's declared
length is a premature end of stream (the six declared header-body bytes are
missing), yet the parse succeeds with a zeroed header and no tracks instead of
aborting: `f.read` returns empty strings at EOF and `int.from_bytes(b'')`
is 0. -/
theorem c9_counterexample :
    parse_midi [0x4d, 0x54, 0x68, 0x64, 0, 0, 0, 6] =
      some { format := 0, ntrks := 0, division := 0, ticks_per_second := 0, tracks := [] } ∧
    [0x4d, 0x54, 0x68, 0x64, (0:ℕ), 0, 0, 6].length < 4 + 4 + 6 := by
  exact ⟨by decide, by decide⟩

theorem c9_witness :
    parse_midi [0, 1, 2] = none ∧
    parse_midi [0x4d, 0x54, 0x68, 0x64, 0, 0, 0, 7] = none ∧
    parse_midi [0x4d, 0x54, 0x68, 0x64, 0, 0, 0, 6, 0, 0, 0, 1, 0, 0x60,
      0x4d, 0x54, 0x72, 0x58] = none ∧
    parse_midi [0x4d, 0x54, 0x68, 0x64, 0, 0, 0, 6, 0, 0, 0, 1, 0, 0x60,
      0x4d, 0x54, 0x72, 0x6b, 0, 0, 0, 2, 0x00, 0xf4] = none ∧
    parse_msg 0 0 none { data := [0xf4], pos := 0 } = none := by
  refine ⟨c9_abort_cases.1 [0, 1, 2] (by decide),
    c9_abort_cases.2.1 [0x4d, 0x54, 0x68, 0x64, 0, 0, 0, 7] (by decide) (by decide),
    c9_abort_cases.2.2.1 [0x4d, 0x54, 0x68, 0x64, 0, 0, 0, 6, 0, 0, 0, 1, 0, 0x60,
      0x4d, 0x54, 0x72, 0x58] (by decide) (by decide) (by decide) (by decide) (by decide)
      (by decide),
    c9_abort_cases.2.2.2.1 [0x4d, 0x54, 0x68, 0x64, 0, 0, 0, 6, 0, 0, 0, 1, 0, 0x60,
      0x4d, 0x54, 0x72, 0x6b, 0, 0, 0, 2, 0x00, 0xf4] 0 0xf4 (by decide) (by decide)
      (by decide) (by decide) (by decide) (by decide) (by decide) (by decide) (by decide)
      (by decide) (by decide) (by decide) (by decide),
    c9_abort_cases.2.2.2.2 0 0 none { data := [0xf4], pos := 0 } (by decide) (by decide)
      (by decide)⟩

/-- The note filter of `MidiFile.note_events`: events whose status byte
satisfies `control & 0xe0 == 0x80` (note-on or note-off), across all tracks in
order. -/
def noteFilter (tracks : List Track) : List (ℕ × ℕ × List ℕ) :=
  (tracks.map (fun tr => tr.filter (fun e => e.2.1 &&& 0xe0 == 0x80))).join

/-- One `(on, channel, key)` occurrence built by `note_events` from a selected
event: `key = msg[0]`, `on = control&0xf0 == 0x90 and msg[1] > 0` (with
Python's short-circuit: `msg[1]` is read only for the note-on nibble).
`none` models the `IndexError` when the payload is too short. -/
def occOf (e : ℕ × ℕ × List ℕ) : Option (ℕ × Bool × ℕ × ℕ) :=
  match e.2.2.head? with
  | none => none
  | some key =>
    if e.2.1 &&& 0xf0 = 0x90 then
      match (e.2.2.drop 1).head? with
      | none => none
      | some vel => some (e.1, decide (0 < vel), e.2.1 &&& 0x0f, key)
    else some (e.1, false, e.2.1 &&& 0x0f, key)

/-- All occurrences of the selected events, in track order. -/
def occList : List (ℕ × ℕ × List ℕ) → Option (List (ℕ × Bool × ℕ × ℕ))
  | [] => some []
  | e :: rest =>
    match occOf e with
    | none => none
    | some o =>
      match occList rest with
      | none => none
      | some os => some (o :: os)

/-- `min(keys, default=0)`. -/
def listMinD : List ℕ → ℕ
  | [] => 0
  | x :: xs => xs.foldl min x

/-- Python's tuple order on `(on, channel, key)` occurrences
(`False < True`). -/
def occLeB (a b : Bool × ℕ × ℕ) : Bool :=
  if a.1 = b.1 then
    if a.2.1 = b.2.1 then decide (a.2.2 ≤ b.2.2)
    else decide (a.2.1 < b.2.1)
  else decide (a.1 = false)

/-- `MidiFile.note_events`: group the occurrences by absolute tick (a dict of
sets in the source — duplicates collapse, modelled by `dedup`), subtract the
minimum tick, and sort.  Since distinct groups have distinct ticks, sorting
the `(tick - min, sorted group)` pairs by Python's tuple order equals sorting
the tick keys and mapping. -/
def note_events (tracks : List Track) : Option (List (ℕ × List (Bool × ℕ × ℕ))) :=
  match occList (noteFilter tracks) with
  | none => none
  | some occs =>
    some ((List.insertionSort (· ≤ ·) ((occs.map Prod.fst).dedup)).map (fun k =>
      (k - listMinD ((occs.map Prod.fst).dedup),
        List.insertionSort (fun a b => occLeB a b = true)
          ((occs.filterMap (fun o => if o.1 = k then some o.2 else none)).dedup))))

/-- `state[channel] = key` on the dict of `monophone_notes_iter` (association
list with unique keys; an existing key keeps its slot, a new key is appended,
as in a Python dict). -/
def dict_set (s : List (ℕ × ℕ)) (c k : ℕ) : List (ℕ × ℕ) :=
  if s.any (fun p => p.1 == c) then s.map (fun p => if p.1 == c then (c, k) else p)
  else s ++ [(c, k)]

/-- `del state[channel]`. -/
def dict_del (s : List (ℕ × ℕ)) (c : ℕ) : List (ℕ × ℕ) :=
  s.filter (fun p => p.1 != c)

/-- The body of the `for on, channel, key in events` loop of
`monophone_notes_iter`: an offset deletes the held pitch only when it matches,
an onset overwrites the channel's held pitch. -/
def upd_state (s : List (ℕ × ℕ)) (ev : Bool × ℕ × ℕ) : List (ℕ × ℕ) :=
  if ev.1 = false then
    if s.lookup ev.2.1 = some ev.2.2 then dict_del s ev.2.1 else s
  else dict_set s ev.2.1 ev.2.2

/-- Python's tuple order on `(channel, key)` pairs. -/
def pairLeB (a b : ℕ × ℕ) : Bool :=
  if a.1 = b.1 then decide (a.2 ≤ b.2) else decide (a.1 < b.1)

/-- `sorted((k,v) for k,v in state.items())`. -/
def sortPairs (s : List (ℕ × ℕ)) : List (ℕ × ℕ) :=
  List.insertionSort (fun a b => pairLeB a b = true) s

/-- The loop of `monophone_notes_iter` over consecutive timeline pairs. -/
def mn_go (s : List (ℕ × ℕ)) :
    List ((ℕ × List (Bool × ℕ × ℕ)) × (ℕ × List (Bool × ℕ × ℕ))) →
    List (ℕ × List (ℕ × ℕ))
  | [] => []
  | pr :: rest =>
    (pr.2.1 - pr.1.1, sortPairs (pr.1.2.foldl upd_state s)) ::
      mn_go (pr.1.2.foldl upd_state s) rest

/-- `MidiFile.monophone_notes_iter` (as the list of its yields, i.e.
`monophone_notes`). -/
def monophone_notes_iter (timeline : List (ℕ × List (Bool × ℕ × ℕ))) :
    List (ℕ × List (ℕ × ℕ)) :=
  mn_go [] (timeline.zip timeline.tail)

theorem listMinD_le (l : List ℕ) (x : ℕ) (hx : x ∈ l) : listMinD l ≤ x := by
  cases l with
  | nil => exact absurd hx (List.not_mem_nil _)
  | cons y ys =>
    rcases List.mem_cons.mp hx with h | h
    · subst h
      show List.foldl min x ys ≤ x
      exact foldl_min_le_init ys x
    · show List.foldl min y ys ≤ x
      exact foldl_min_le_mem ys y x h

theorem listMinD_mem (l : List ℕ) (h : l ≠ []) : listMinD l ∈ l := by
  cases l with
  | nil => exact absurd rfl h
  | cons y ys =>
    rcases foldl_min_eq_or_mem ys y with h2 | h2
    · rw [listMinD, h2]; exact List.mem_cons_self _ _
    · rw [listMinD]; exact List.mem_cons_of_mem _ h2

theorem occList_nil_iff (l : List (ℕ × ℕ × List ℕ)) (os : List (ℕ × Bool × ℕ × ℕ))
    (h : occList l = some os) : os = [] ↔ l = [] := by
  cases l with
  | nil =>
    simp only [occList, Option.some.injEq] at h
    rw [← h]
    simp
  | cons e rest =>
    simp only [occList] at h
    constructor
    · intro hos
      rw [hos] at h
      rcases ho : occOf e with _ | o <;> rw [ho] at h
      · exact absurd h (by simp)
      · rcases hr : occList rest with _ | os' <;> rw [hr] at h
        · exact absurd h (by simp)
        · exact absurd (Option.some.inj h) (by simp)
    · intro hc
      exact absurd hc (by simp)

/-- C7 (amended: whenever `note_events` completes without an `IndexError` —
equivalently every event passing the note filter carries the payload bytes it
reads): the returned sequence has strictly ascending ticks with no duplicates,
its first entry is at tick exactly 0 when there is at least one filtered note
event, and it is empty when there is none. -/
theorem c7_note_events_normalized (tracks : List Track)
    (evs : List (ℕ × List (Bool × ℕ × ℕ)))
    (h : note_events tracks = some evs) :
    List.Pairwise (· < ·) (evs.map Prod.fst) ∧
    (noteFilter tracks ≠ [] → (evs.map Prod.fst).head? = some 0) ∧
    (noteFilter tracks = [] → evs = []) := by
  rcases hocc : occList (noteFilter tracks) with _ | occs
  · rw [note_events, hocc] at h
    exact absurd h (by simp)
  · rw [note_events, hocc] at h
    have hevs := (Option.some.inj h).symm
    have hmapfst : evs.map Prod.fst =
        (List.insertionSort (· ≤ ·) ((occs.map Prod.fst).dedup)).map
          (fun k => k - listMinD ((occs.map Prod.fst).dedup)) := by
      rw [hevs, List.map_map]
      rfl
    have hperm := List.perm_insertionSort (α := ℕ) (· ≤ ·) ((occs.map Prod.fst).dedup)
    have hsorted := List.sorted_insertionSort (α := ℕ) (· ≤ ·) ((occs.map Prod.fst).dedup)
    have hnodup : (List.insertionSort (α := ℕ) (· ≤ ·) ((occs.map Prod.fst).dedup)).Nodup :=
      hperm.nodup_iff.mpr (List.nodup_dedup _)
    have hlt : List.Pairwise (· < ·)
        (List.insertionSort (α := ℕ) (· ≤ ·) ((occs.map Prod.fst).dedup)) :=
      (hsorted.and hnodup).imp (fun hab => lt_of_le_of_ne hab.1 hab.2)
    refine ⟨?_, ?_, ?_⟩
    · rw [hmapfst]
      rw [List.pairwise_map]
      refine hlt.imp_of_mem ?_
      intro a b ha _ hab
      have hma : listMinD ((occs.map Prod.fst).dedup) ≤ a :=
        listMinD_le _ a (hperm.mem_iff.mp ha)
      omega
    · intro hne
      have hoccs_ne : occs ≠ [] := by
        intro hc
        exact hne (((occList_nil_iff _ _ hocc).mp hc))
      have hkeys_ne : (occs.map Prod.fst).dedup ≠ [] := by
        cases occs with
        | nil => exact absurd rfl hoccs_ne
        | cons o os =>
          intro hc
          have : o.1 ∈ (((o :: os).map Prod.fst).dedup) :=
            List.mem_dedup.mpr (List.mem_map_of_mem _ (List.mem_cons_self _ _))
          rw [hc] at this
          exact List.not_mem_nil _ this
      rcases hsk : List.insertionSort (α := ℕ) (· ≤ ·) ((occs.map Prod.fst).dedup) with
        _ | ⟨k0, ks⟩
      · exact absurd (List.Perm.eq_nil (hsk ▸ hperm).symm) hkeys_ne
      · have hk0mem : k0 ∈ (occs.map Prod.fst).dedup :=
          hperm.mem_iff.mp (hsk ▸ List.mem_cons_self k0 ks)
        have hminmem : listMinD ((occs.map Prod.fst).dedup) ∈ k0 :: ks :=
          hsk ▸ hperm.mem_iff.mpr (listMinD_mem _ hkeys_ne)
        have hle1 : listMinD ((occs.map Prod.fst).dedup) ≤ k0 := listMinD_le _ k0 hk0mem
        have hle2 : k0 ≤ listMinD ((occs.map Prod.fst).dedup) := by
          rcases List.mem_cons.mp hminmem with h2 | h2
          · rw [h2]
          · exact List.rel_of_sorted_cons (hsk ▸ hsorted) _ h2
        rw [hmapfst, hsk]
        simp only [List.map_cons, List.head?_cons, Option.some.injEq]
        omega
    · intro hnil
      rw [hevs]
      have : occs = [] := (occList_nil_iff _ _ (hnil ▸ hocc)).mpr rfl
      rw [this]
      simp [List.insertionSort]

set_option maxHeartbeats 1600000 in
/-- C7 counterexample: a parsed file whose track holds a genuine note-on plus
a meta event of meta-type `0x8c` with empty payload.  `_parse_msg` returns the
meta-type as the event's status, `0x8c & 0xe0 == 0x80` passes the note filter,
and `msg[0]` on the empty payload raises `IndexError` inside `note_events` —
so no merged sequence is returned at all, although the file contains a
note-on event. -/
theorem c7_counterexample :
    parse_midi [0x4d, 0x54, 0x68, 0x64, 0, 0, 0, 6, 0, 0, 0, 1, 0, 0x60,
        0x4d, 0x54, 0x72, 0x6b, 0, 0, 0, 8,
        0x00, 0x90, 0x45, 0x40, 0x00, 0xff, 0x8c, 0x00] =
      some
        { format := 0, ntrks := 1, division := 0x60, ticks_per_second := 0,
          tracks := [[(0, 0x90, [0x45, 0x40]), (0, 0x8c, [])]] } ∧
    note_events [[(0, 0x90, [0x45, 0x40]), (0, 0x8c, [])]] = none ∧
    (noteFilter [[(0, 0x90, [0x45, 0x40]), (0, 0x8c, [])]]).length = 2 := by
  refine ⟨by decide, by decide, by decide⟩

theorem c7_witness :
    (([(0, [(true, 0, 60)]), (4, [(false, 0, 60)])] :
      List (ℕ × List (Bool × ℕ × ℕ))).map Prod.fst).head? = some 0 :=
  (c7_note_events_normalized [[(5, 0x90, [60, 100]), (9, 0x80, [60, 64])]]
    [(0, [(true, 0, 60)]), (4, [(false, 0, 60)])] (by decide)).2.1 (by decide)

/-- C8: in the monophonic extractor, (i) a second onset on the same channel
before any offset overwrites the held pitch, so only the second pitch is
reported in the following interval; (ii) an offset whose pitch differs from
the held pitch is ignored and the held pitch is reported unchanged. -/
theorem c8_monophonic_collapse (c k1 k2 t0 t1 t2 : ℕ) (es : List (Bool × ℕ × ℕ))
    (hne : k1 ≠ k2) :
    monophone_notes_iter [(t0, [(true, c, k1)]), (t1, [(true, c, k2)]), (t2, es)] =
      [(t1 - t0, [(c, k1)]), (t2 - t1, [(c, k2)])] ∧
    monophone_notes_iter [(t0, [(true, c, k1)]), (t1, [(false, c, k2)]), (t2, es)] =
      [(t1 - t0, [(c, k1)]), (t2 - t1, [(c, k1)])] := by
  constructor
  · simp [monophone_notes_iter, mn_go, upd_state, dict_set, dict_del, sortPairs,
      List.insertionSort, List.orderedInsert, List.zip]
  · simp [monophone_notes_iter, mn_go, upd_state, dict_set, dict_del, sortPairs,
      List.insertionSort, List.orderedInsert, List.zip, List.lookup, hne]

theorem c8_witness :
    monophone_notes_iter [(0, [(true, 2, 60)]), (8, [(true, 2, 64)]), (20, [])] =
      [(8, [(2, 60)]), (12, [(2, 64)])] ∧
    monophone_notes_iter [(0, [(true, 2, 60)]), (8, [(false, 2, 64)]), (20, [])] =
      [(8, [(2, 60)]), (12, [(2, 60)])] :=
  c8_monophonic_collapse 2 60 64 0 8 20 [] (by decide)

/-- The channel-to-axis table `AXIS`; `none` models the `KeyError` for an
unmapped channel. -/
def AXIS : ℕ → Option Axis
  | 0 => some Axis.X
  | 1 => some Axis.Y
  | 2 => some Axis.Z
  | _ => none

/-- `CALIBRATION` (mm/min/Hz). -/
def CALIBRATION : Axis → ℚ
  | Axis.X => 1920 / 99
  | Axis.Y => 1920 / 99
  | Axis.Z => 240 / 99

/-- `SPEED_RANGES` (mm/min). -/
def SPEED_RANGES : Axis → ℚ × ℚ
  | Axis.X => (1500, 10000)
  | Axis.Y => (1500, 10000)
  | Axis.Z => (200, 500)

/-- `speed_for_note`, with the transcendental `freq_for_note`
(`440 * 2**((note-69)/12)`, floating point in the source) abstracted as the
parameter `freq`: the computed speed is returned when inside the axis's
audible band, else the silence sentinel 0. -/
def speed_for_note (freq : ℕ → ℚ) (axis : Axis) (note : ℕ) : ℚ :=
  if (SPEED_RANGES axis).1 ≤ freq note * CALIBRATION axis ∧
      freq note * CALIBRATION axis ≤ (SPEED_RANGES axis).2 then
    freq note * CALIBRATION axis
  else 0

/-- One emitted line of `Midi2Gcode.generate`: either a `G4` wait of the given
seconds, or a `G1` move to a position.  `speedSq` is the sum of squared axis
speeds; the printed feed is its square root (`math.sqrt`, a
formatting-boundary concern kept out of the rational model). -/
inductive GOut
  | wait (seconds : ℚ)
  | moveTo (pos : AxisMap ℚ) (speedSq : ℚ)
  deriving DecidableEq

/-- The `speeds` dict comprehension of `generate`:
`{AXIS[channel]: speed_for_note(AXIS[channel], key) for channel, key in state}`.
`none` models the `KeyError` on an unmapped channel. -/
def axis_speeds (freq : ℕ → ℚ) : List (ℕ × ℕ) → Option (List (Axis × ℚ))
  | [] => some []
  | (ch, key) :: rest =>
    match AXIS ch with
    | none => none
    | some a =>
      match axis_speeds freq rest with
      | none => none
      | some xs => some ((a, speed_for_note freq a key) :: xs)

/-- One iteration of the `for duration, state in ...monophone_notes()` loop of
`Midi2Gcode.generate`: compute `duration_seconds = duration/ticks_per_second`
(Python raises `ZeroDivisionError` when `ticks_per_second` is 0 — reachable
for a PPQN file with no tempo event — modelled as `none`), skip sub-10 ms
intervals, emit a wait for silent intervals, otherwise plan distances
`duration_seconds × speed / 60` through `move` and emit every yielded
position. -/
def gen_step (freq : ℕ → ℚ) (fuel : ℕ) (tps : ℚ) (st : M2GState)
    (item : ℕ × List (ℕ × ℕ)) : Option (List GOut × M2GState) :=
  if tps = 0 then none
  else if ((item.1 : ℚ) / tps) < 1 / 100 then some ([], st)
  else if item.2 = [] then some ([GOut.wait ((item.1 : ℚ) / tps)], st)
  else
    match axis_speeds freq item.2 with
    | none => none
    | some speeds =>
      match move fuel st (speeds.map (fun p => (p.1, (item.1 : ℚ) / tps * p.2 / 60))) with
      | (_, none) => none
      | (out, some st2) =>
        some (out.map (fun q =>
          GOut.moveTo q ((speeds.map (fun p => p.2 * p.2)).foldl (· + ·) 0)), st2)

/-- The interval loop of `Midi2Gcode.generate` (prologue/epilogue printing is
an external emission concern); the planner state starts at `startState` after
`_reset`. -/
def generate (freq : ℕ → ℚ) (fuel : ℕ) (tps : ℚ) :
    M2GState → List (ℕ × List (ℕ × ℕ)) → Option (List GOut)
  | _, [] => some []
  | st, item :: rest =>
    match gen_step freq fuel tps st item with
    | none => none
    | some (out, st2) =>
      match generate freq fuel tps st2 rest with
      | none => none
      | some out2 => some (out ++ out2)

/-- C10: with a resolved (non-zero) `ticks_per_second`, an interval whose
physical duration `duration / ticks_per_second` is below 0.01 s contributes no
output at all to `generate` — no wait, no motion — and leaves the planner
position and direction memory untouched. -/
theorem c10_skip_short (freq : ℕ → ℚ) (fuel : ℕ) (tps : ℚ) (st : M2GState)
    (duration : ℕ) (state : List (ℕ × ℕ)) (rest : List (ℕ × List (ℕ × ℕ)))
    (htps : tps ≠ 0) (h : ((duration : ℚ) / tps) < 1 / 100) :
    gen_step freq fuel tps st (duration, state) = some ([], st) ∧
    generate freq fuel tps st ((duration, state) :: rest) =
      generate freq fuel tps st rest := by
  have h1 : gen_step freq fuel tps st (duration, state) = some ([], st) := by
    simp only [gen_step]
    rw [if_neg htps, if_pos h]
  refine ⟨h1, ?_⟩
  simp only [generate, h1]
  cases hg : generate freq fuel tps st rest <;> simp

theorem c10_witness :
    gen_step (fun _ => 0) 1 1 startState (0, []) = some ([], startState) ∧
    generate (fun _ => 0) 1 1 startState [(0, [])] =
      generate (fun _ => 0) 1 1 startState [] :=
  c10_skip_short (fun _ => 0) 1 1 startState 0 [] [] (by norm_num) (by norm_num)
